import Mathlib

/-!
Verification of the node-ordering core of the flow-accumulation notebook
(Braun & Willett single-flow stack ordering).

The embedded functions follow the Python source cell by cell:

* `calculateTempArrays` embeds `_calculate_temp_arrays` (histogram pass,
  reverse exclusive prefix sum, scatter pass).  NumPy arrays of known,
  in-range indices are modelled as `List Nat` with `List.getD`/`List.set`;
  all claims about this model carry the precondition that receiver values
  lie in `[0, N)`, under which every read and write of the source is in
  range, so `getD`/`set` agree with NumPy indexing.
* `buildStack` embeds the recursive `_build_stack`; Python's unbounded
  recursion is modelled with explicit fuel, `none` meaning the fuel ran out
  (under the forest precondition we prove fuel `N+1` never runs out).
* `buildStackNr` embeds the non-recursive `_build_stack_nr`; the `while`
  loop is modelled with fuel in the same way.
* `orderNodesNumba` embeds the driver `order_nodes_numba`, including the
  literal `0` that the source passes as the start position in the
  `non-recursive` branch (`_build_stack_nr(b, receivers, D, delta, s,
  stack_id, 0)`), where the `recursive` branch passes the running cursor.

A second model over `List Int` (the `Checked` functions, further below)
keeps Python/NumPy index semantics exactly — negative indices wrap, out of
range raises — and is used for the error-handling claim.
-/

/-- Histogram pass of `_calculate_temp_arrays`: `for i in range(np):
nd[r[i]] += 1`, folded over the receiver values in ascending index order. -/
def histLoopNat (nd : List Nat) : List Nat → List Nat
  | [] => nd
  | x :: xs => histLoopNat (nd.set x (nd.getD x 0 + 1)) xs

/-- Reverse exclusive prefix-sum pass of `_calculate_temp_arrays`:
`for i in range(np - 1, -1, -1): delta[i] = delta[i + 1] - nd[i]`.
The counter argument `i+1` processes index `i` and recurses downward. -/
def deltaLoop (nd : List Nat) : List Nat → Nat → List Nat
  | delta, 0 => delta
  | delta, i+1 => deltaLoop nd (delta.set i (delta.getD (i+1) 0 - nd.getD i 0)) i

/-- Scatter pass of `_calculate_temp_arrays`: `for i in range(np):
ri = r[i]; D[delta[ri] + w[ri]] = i; w[ri] += 1`, over the index list. -/
def scatterLoop (r delta : List Nat) : List Nat → List Nat × List Nat → List Nat × List Nat
  | [], dw => dw
  | i :: is, (d, w) =>
    let ri := r.getD i 0
    scatterLoop r delta is (d.set (delta.getD ri 0 + w.getD ri 0) i, w.set ri (w.getD ri 0 + 1))

/-- Embedding of `_calculate_temp_arrays` (plus the zero-initialisation its
caller does): returns the pair `(delta, D)`; `nd` and `w` are the working
arrays the source discards. -/
def calculateTempArrays (r : List Nat) : List Nat × List Nat :=
  let np := r.length
  let nd := histLoopNat (List.replicate np 0) r
  let delta := deltaLoop nd ((List.replicate (np+1) 0).set np np) np
  let dw := scatterLoop r delta (List.range np) (List.replicate np 0, List.replicate np 0)
  (delta, dw.1)

/-- First component of `calculateTempArrays`: the offset array `delta`. -/
def calcDelta (r : List Nat) : List Nat := (calculateTempArrays r).1

/-- Second component of `calculateTempArrays`: the flattened donor array `D`. -/
def calcD (r : List Nat) : List Nat := (calculateTempArrays r).2

/-- Donor segment scanned by both stack builders: the values `D[i]` for
`i in range(delta[n], delta[n+1])`. -/
def donorSeg (d delta : List Nat) (n : Nat) : List Nat :=
  (List.range' (delta.getD n 0) (delta.getD (n+1) 0 - delta.getD n 0)).map
    (fun i => d.getD i 0)

/-- Donor loop of the recursive `_build_stack`: for each `m` in the donor
segment, skip `m == n`, otherwise recurse via `recur` at position `inc+1`
and continue with the returned position. -/
def goDonors (recur : Nat → List Nat → Nat → Option (List Nat × Nat)) (n : Nat) :
    List Nat → List Nat → Nat → Option (List Nat × Nat)
  | [], s, inc => some (s, inc)
  | m :: ms, s, inc =>
    if m = n then goDonors recur n ms s inc
    else
      match recur m s (inc + 1) with
      | none => none
      | some (s2, inc2) => goDonors recur n ms s2 inc2

/-- Embedding of the recursive `_build_stack(n, D, delta, s, inc)`:
writes `s[inc] = n`, recurses over the donor segment, and returns the pair
(final `s`, returned `inc`).  The source's unbounded Python recursion is
modelled with fuel; `none` means the fuel bound was hit. -/
def buildStack (d delta : List Nat) : Nat → Nat → List Nat → Nat → Option (List Nat × Nat)
  | 0, _, _, _ => none
  | fuel+1, n, s, inc => goDonors (buildStack d delta fuel) n (donorSeg d delta n) (s.set inc n) inc

/-- Inner donor scan of `_build_stack_nr`: first donor `m` in the segment
with `stack_id[m] != b`, if any. -/
def findUnstamped (sid : List Int) (b : Nat) : List Nat → Option Nat
  | [] => none
  | m :: ms => if sid.getD m 0 ≠ (b : Int) then some m else findUnstamped sid b ms

/-- Main `while n != n_prev` loop of `_build_stack_nr`, with fuel.  On an
unstamped donor `m`: `inc += 1; s[inc] = m; stack_id[m] = b; n = m`;
otherwise `n = r[n]`.  `none` means the fuel bound was hit. -/
def buildStackNrGo (r d delta : List Nat) (b : Nat) :
    Nat → Nat → Int → List Nat → List Int → Nat → Option (List Nat × List Int × Nat)
  | 0, _, _, _, _, _ => none
  | fuel+1, n, nprev, s, sid, inc =>
    if (n : Int) = nprev then some (s, sid, inc)
    else
      match findUnstamped sid b (donorSeg d delta n) with
      | some m => buildStackNrGo r d delta b fuel m (n : Int) (s.set (inc+1) m) (sid.set m (b : Int)) (inc+1)
      | none => buildStackNrGo r d delta b fuel (r.getD n 0) (n : Int) s sid inc

/-- Embedding of `_build_stack_nr(b, r, D, delta, s, stack_id, inc)`:
initialisation `n_prev = -1; n = b; s[inc] = n; stack_id[n] = b` followed by
the main loop. -/
def buildStackNr (r d delta : List Nat) (fuel b : Nat) (s : List Nat) (sid : List Int)
    (inc : Nat) : Option (List Nat × List Int × Nat) :=
  buildStackNrGo r d delta b fuel b (-1) (s.set inc b) (sid.set b (b : Int)) inc

/-- Builder choice of `order_nodes_numba` (`mode='recursive'` or
`mode='non-recursive'`). -/
inductive Mode where
  | recursive
  | nonRecursive

/-- Driver loop of `order_nodes_numba`: `inc = 0; for b in baselevels:
inc = bstack_func(b, inc) + 1`.  In the `recursive` branch `bstack_func`
passes the running `inc`; in the `nonRecursive` branch the source's lambda
passes the literal `0` (`_build_stack_nr(b, receivers, D, delta, s,
stack_id, 0)`), reproduced here verbatim. -/
def driverLoop (receivers d delta : List Nat) (mode : Mode) (fuel : Nat) :
    List Nat → List Nat → List Int → Nat → Option (List Nat × List Int)
  | [], s, sid, _ => some (s, sid)
  | b :: bs, s, sid, inc =>
    match mode with
    | .recursive =>
      match buildStack d delta fuel b s inc with
      | none => none
      | some (s2, inc2) => driverLoop receivers d delta mode fuel bs s2 sid (inc2 + 1)
    | .nonRecursive =>
      match buildStackNr receivers d delta fuel b s sid 0 with
      | none => none
      | some (s2, sid2, inc2) => driverLoop receivers d delta mode fuel bs s2 sid2 (inc2 + 1)

/-- Embedding of the driver `order_nodes_numba(receivers, baselevels, mode)`:
builds the temporary arrays once, allocates `s` (zeros) and `stack_id`
(minus ones), and runs the per-root loop.  Returns `(s, stack_id)`. -/
def orderNodesNumba (receivers baselevels : List Nat) (mode : Mode) (fuel : Nat) :
    Option (List Nat × List Int) :=
  let np := receivers.length
  let dd := calculateTempArrays receivers
  driverLoop receivers dd.2 dd.1 mode fuel baselevels
    (List.replicate np 0) (List.replicate np (-1 : Int)) 0

/-! ### Specification-side notions

These are stated from the receiver array directly (not from the code's
derived arrays): iterated receivers, the forest precondition, subtree
membership, and the preorder sequence the spec describes. -/

/-- Iterated receiver map: `iterR r k i` follows the receiver link `k`
times starting from node `i`. -/
def iterR (r : List Nat) : Nat → Nat → Nat
  | 0, i => i
  | k+1, i => iterR r k (r.getD i 0)

/-- Node `b` is base-level: it is its own receiver. -/
def IsBase (r : List Nat) (b : Nat) : Prop := r.getD b 0 = b

instance (r : List Nat) (b : Nat) : Decidable (IsBase r b) := by
  unfold IsBase; infer_instance

/-- Well-formed forest input: every receiver value is in `[0, N)` and,
excluding the base-level self-loops, the receiver relation is acyclic —
equivalently, from every node, `N` receiver steps reach a base-level node. -/
def Forest (r : List Nat) : Prop :=
  (∀ x ∈ r, x < r.length) ∧ ∀ i, i < r.length → IsBase r (iterR r r.length i)

instance (r : List Nat) : Decidable (Forest r) := by
  unfold Forest; infer_instance

/-- Node `j` belongs to the subtree draining to base-level node `b`:
after `N` receiver steps from `j` we sit at `b`.  (Once a base is reached
the iteration stays there, so under `Forest` this captures reachability.) -/
def InSubtree (r : List Nat) (b j : Nat) : Prop := iterR r r.length j = b

instance (r : List Nat) (b j : Nat) : Decidable (InSubtree r b j) := by
  unfold InSubtree; infer_instance

/-- Donors of `n` in the spec's sense: nodes `m` with `r[m] = n`, excluding
the self-loop, listed in ascending id order. -/
def donorsOf (r : List Nat) (n : Nat) : List Nat :=
  (List.range r.length).filter (fun m => m ≠ n && r.getD m 0 = n)

/-- Concatenation of `rec m` over a donor list (helper for `preorder`). -/
def preorderList (rec : Nat → List Nat) : List Nat → List Nat
  | [] => []
  | m :: ms => rec m ++ preorderList rec ms

/-- Modelled from the spec: the preorder depth-first sequence of the
subtree rooted at `n`, visiting donor segments in ascending id order
("place `b`; for each donor in ascending order, recursively build").
Written from the receiver array alone; used as the specification side of
the refinement claims about the stack builders. -/
def preorder (r : List Nat) : Nat → Nat → List Nat
  | 0, _ => []
  | fuel+1, n => n :: preorderList (preorder r fuel) (donorsOf r n)

/-- Overwrite `s` with the values of `l` starting at position `inc`
(used to state what the imperative builders do to `s`). -/
def writeSeq (s : List Nat) (inc : Nat) : List Nat → List Nat
  | [] => s
  | m :: ms => writeSeq (s.set inc m) (inc+1) ms

/-- Slice `l[a : a+len]` read with `getD` (used to state the donor-segment
claims). -/
def seg (l : List Nat) (a len : Nat) : List Nat :=
  (List.range' a len).map (fun t => l.getD t 0)

example :
    (orderNodesNumba [1,4,1,6,4,4,5,4,6,7] [4] .recursive 132).map Prod.fst
      = some [4,1,0,2,5,6,3,8,7,9] := by decide

example :
    (orderNodesNumba [1,4,1,6,4,4,5,4,6,7] [4] .nonRecursive 132).map Prod.fst
      = some [4,1,0,2,5,6,3,8,7,9] := by decide

example :
    (orderNodesNumba [0,1] [0,1] .recursive 20).map Prod.fst = some [0,1] := by decide

example :
    (orderNodesNumba [0,1] [0,1] .nonRecursive 20).map Prod.fst = some [1,0] := by decide

example :
    (orderNodesNumba [0,1,0] [0,1] .nonRecursive 20).map Prod.fst = some [1,2,0] := by decide

example :
    (orderNodesNumba [0,0,2,2] [0,2] .nonRecursive 30).map Prod.fst = some [2,3,0,0] := by decide

example : buildStack (calcD [0]) (calcDelta [0]) 2 0 [7] 0 = some ([0], 0) := by decide

example : preorder [1,4,1,6,4,4,5,4,6,7] 11 4 = [4,1,0,2,5,6,3,8,7,9] := by decide

/-! ### Generic list-access helpers -/

theorem getD_set_self {α} (l : List α) (i : Nat) (v d : α) (h : i < l.length) :
    (l.set i v).getD i d = v := by
  rw [List.getD_eq_getElem?_getD, List.getElem?_set_self h]
  rfl

theorem getD_set_ne {α} (l : List α) {i j : Nat} (v d : α) (h : i ≠ j) :
    (l.set i v).getD j d = l.getD j d := by
  rw [List.getD_eq_getElem?_getD, List.getElem?_set_ne h, ← List.getD_eq_getElem?_getD]

theorem getD_replicate_self {α} (n i : Nat) (d : α) : (List.replicate n d).getD i d = d := by
  rw [List.getD_eq_getElem?_getD, List.getElem?_replicate]
  split <;> rfl

theorem getD_mem_of_lt (l : List Nat) (i : Nat) (h : i < l.length) : l.getD i 0 ∈ l := by
  rw [List.getD_eq_getElem l 0 h]
  exact List.getElem_mem h

/-! ### Counting-sort correctness for the adjacency builder -/

/-- Number of nodes whose receiver is `k` (donor count of `k`). -/
def cnt (r : List Nat) (k : Nat) : Nat :=
  ((List.range r.length).filter (fun j => r.getD j 0 = k)).length

/-- Number of nodes whose receiver is below `k`: the start offset of `k`'s
donor segment in the flattened donor array. -/
def pre (r : List Nat) (k : Nat) : Nat := ∑ j in Finset.range k, cnt r j

theorem histLoopNat_length (xs : List Nat) : ∀ nd : List Nat,
    (histLoopNat nd xs).length = nd.length := by
  induction xs with
  | nil => intro nd; rfl
  | cons x xs ih =>
    intro nd
    show (histLoopNat (nd.set x (nd.getD x 0 + 1)) xs).length = nd.length
    rw [ih, List.length_set]

theorem histLoopNat_getD (xs : List Nat) : ∀ (nd : List Nat) (k : Nat),
    (∀ x ∈ xs, x < nd.length) →
    (histLoopNat nd xs).getD k 0 = nd.getD k 0 + (xs.filter (fun x => x = k)).length := by
  induction xs with
  | nil => intro nd k _; simp [histLoopNat]
  | cons x xs ih =>
    intro nd k hx
    show (histLoopNat (nd.set x (nd.getD x 0 + 1)) xs).getD k 0 = _
    rw [ih _ k (by intro y hy; rw [List.length_set]; exact hx y (List.mem_cons_of_mem _ hy))]
    rw [List.filter_cons]
    by_cases hxk : x = k
    · subst hxk
      rw [getD_set_self _ _ _ _ (hx x (List.mem_cons_self x xs))]
      simp only [decide_eq_true_eq, eq_self_iff_true, if_true, List.length_cons]
      omega
    · rw [getD_set_ne _ _ _ hxk]
      simp [hxk]

/-- Counting occurrences by value equals counting matching indices. -/
theorem filter_range_getD (p : Nat → Bool) : ∀ l : List Nat,
    ((List.range l.length).filter (fun j => p (l.getD j 0))).length
      = (l.filter p).length := by
  intro l
  induction l with
  | nil => rfl
  | cons x t ih =>
    show ((List.range (t.length + 1)).filter _).length = _
    rw [List.range_succ_eq_map, List.filter_cons, List.filter_map, List.filter_cons]
    simp only [List.getD_cons_zero, Function.comp_def, Nat.succ_eq_add_one, List.getD_cons_succ]
    by_cases hx : p x = true
    · rw [if_pos hx, if_pos hx]
      simp only [List.length_cons, List.length_map]
      rw [ih]
    · rw [if_neg hx, if_neg hx]
      rw [List.length_map, ih]

/-- Suffix sum of the donor counts from index `i` to the end. -/
def sufSum (nd : List Nat) (i : Nat) : Nat := ∑ j in Finset.Ico i nd.length, nd.getD j 0

theorem sufSum_step (nd : List Nat) (k : Nat) (hk : k < nd.length) :
    sufSum nd k = nd.getD k 0 + sufSum nd (k+1) := by
  unfold sufSum
  exact Finset.sum_eq_sum_Ico_succ_bot hk _

theorem sufSum_last (nd : List Nat) : sufSum nd nd.length = 0 := by
  unfold sufSum
  simp

theorem deltaLoop_length (nd : List Nat) : ∀ (k : Nat) (delta : List Nat),
    (deltaLoop nd delta k).length = delta.length := by
  intro k
  induction k with
  | zero => intro delta; rfl
  | succ i ih =>
    intro delta
    show (deltaLoop nd (delta.set i _) i).length = _
    rw [ih, List.length_set]

theorem deltaLoop_getD (nd : List Nat) : ∀ (k : Nat) (delta : List Nat),
    k ≤ nd.length → delta.length = nd.length + 1 →
    (∀ j, k ≤ j → j ≤ nd.length → delta.getD j 0 = nd.length - sufSum nd j) →
    ∀ j, j ≤ nd.length → (deltaLoop nd delta k).getD j 0 = nd.length - sufSum nd j := by
  intro k
  induction k with
  | zero =>
    intro delta _ _ hinv j hj
    exact hinv j (Nat.zero_le j) hj
  | succ i ih =>
    intro delta hk hlen hinv j hj
    show (deltaLoop nd (delta.set i (delta.getD (i+1) 0 - nd.getD i 0)) i).getD j 0 = _
    apply ih _ (Nat.le_of_succ_le hk) (by rw [List.length_set]; exact hlen) _ j hj
    intro j' hij' hj'
    by_cases hji : j' = i
    · subst hji
      rw [getD_set_self _ _ _ _ (by omega)]
      rw [hinv (j'+1) (Nat.le_refl _) (by omega)]
      rw [Nat.sub_sub, sufSum_step nd j' (by omega)]
      omega
    · rw [getD_set_ne _ _ _ (fun h => hji h.symm)]
      exact hinv j' (by omega) hj'

theorem calcDelta_length (r : List Nat) : (calcDelta r).length = r.length + 1 := by
  show (deltaLoop _ _ _).length = _
  rw [deltaLoop_length, List.length_set, List.length_replicate]

theorem scatterLoop_fst_length (r delta : List Nat) : ∀ (is : List Nat) (d w : List Nat),
    (scatterLoop r delta is (d, w)).1.length = d.length := by
  intro is
  induction is with
  | nil => intro d w; rfl
  | cons i is ih =>
    intro d w
    show (scatterLoop r delta is (_, _)).1.length = _
    rw [ih, List.length_set]

theorem calcD_length (r : List Nat) : (calcD r).length = r.length := by
  show (scatterLoop r _ (List.range r.length) (List.replicate r.length 0, List.replicate r.length 0)).1.length = _
  rw [scatterLoop_fst_length, List.length_replicate]

theorem calcDelta_getD_raw (r : List Nat) (j : Nat) (hj : j ≤ r.length) :
    (calcDelta r).getD j 0
      = r.length - sufSum (histLoopNat (List.replicate r.length 0) r) j := by
  have hndlen : (histLoopNat (List.replicate r.length 0) r).length = r.length := by
    rw [histLoopNat_length, List.length_replicate]
  have h := deltaLoop_getD (histLoopNat (List.replicate r.length 0) r) r.length
    ((List.replicate (r.length+1) 0).set r.length r.length)
    (by omega)
    (by rw [List.length_set, List.length_replicate]; omega)
    (by
      intro j' hj' hj''
      rw [hndlen] at hj''
      have hj'eq : j' = r.length := le_antisymm hj'' (hndlen ▸ hj')
      subst hj'eq
      rw [getD_set_self _ _ _ _ (by rw [List.length_replicate]; omega)]
      have h0 : sufSum (histLoopNat (List.replicate r.length 0) r) r.length = 0 := by
        have h1 := sufSum_last (histLoopNat (List.replicate r.length 0) r)
        rw [hndlen] at h1
        exact h1
      omega)
    j (by rw [hndlen]; exact hj)
  rw [hndlen] at h
  exact h

theorem cnt_eq_filter (r : List Nat) (k : Nat) :
    cnt r k = (r.filter (fun x => x = k)).length := by
  unfold cnt
  exact filter_range_getD (fun x => decide (x = k)) r

theorem hist_cnt (r : List Nat) (hR : ∀ x ∈ r, x < r.length) (k : Nat) :
    (histLoopNat (List.replicate r.length 0) r).getD k 0 = cnt r k := by
  rw [histLoopNat_getD r _ k (by intro x hx; rw [List.length_replicate]; exact hR x hx)]
  rw [getD_replicate_self, Nat.zero_add, cnt_eq_filter]

theorem sum_filter_eq_length (M : Nat) : ∀ l : List Nat, (∀ x ∈ l, x < M) →
    ∑ k in Finset.range M, (l.filter (fun x => x = k)).length = l.length := by
  intro l
  induction l with
  | nil => simp
  | cons x t ih =>
    intro hx
    have hlt : x < M := hx x (List.mem_cons_self x t)
    have ht : ∀ y ∈ t, y < M := fun y hy => hx y (List.mem_cons_of_mem _ hy)
    calc ∑ k in Finset.range M, ((x :: t).filter (fun y => y = k)).length
        = ∑ k in Finset.range M,
            ((if x = k then 1 else 0) + (t.filter (fun y => y = k)).length) := by
          apply Finset.sum_congr rfl
          intro k _
          rw [List.filter_cons]
          by_cases hxk : x = k
          · simp [hxk]
            omega
          · simp [hxk]
      _ = (∑ k in Finset.range M, if x = k then 1 else 0)
            + ∑ k in Finset.range M, (t.filter (fun y => y = k)).length :=
          Finset.sum_add_distrib
      _ = 1 + t.length := by
          rw [ih ht, Finset.sum_ite_eq]
          simp [hlt]
      _ = (x :: t).length := by simp [Nat.add_comm]

theorem pre_total (r : List Nat) (hR : ∀ x ∈ r, x < r.length) : pre r r.length = r.length := by
  unfold pre
  calc ∑ j in Finset.range r.length, cnt r j
      = ∑ j in Finset.range r.length, (r.filter (fun x => x = j)).length := by
        apply Finset.sum_congr rfl
        intro k _
        exact cnt_eq_filter r k
    _ = r.length := sum_filter_eq_length r.length r hR

theorem pre_succ (r : List Nat) (k : Nat) : pre r (k+1) = pre r k + cnt r k :=
  Finset.sum_range_succ _ _

theorem pre_mono (r : List Nat) {i j : Nat} (h : i ≤ j) : pre r i ≤ pre r j :=
  Finset.sum_le_sum_of_subset (Finset.range_subset.mpr h)

theorem pre_add_suf (r : List Nat) (hR : ∀ x ∈ r, x < r.length) (j : Nat) (hj : j ≤ r.length) :
    pre r j + ∑ k in Finset.Ico j r.length, cnt r k = r.length := by
  have h := Finset.sum_Ico_consecutive (fun k => cnt r k) (Nat.zero_le j) hj
  unfold pre
  rw [Finset.range_eq_Ico, h, ← Finset.range_eq_Ico]
  exact pre_total r hR

theorem calcDelta_eq_pre (r : List Nat) (hR : ∀ x ∈ r, x < r.length) (j : Nat)
    (hj : j ≤ r.length) : (calcDelta r).getD j 0 = pre r j := by
  rw [calcDelta_getD_raw r j hj]
  have hndlen : (histLoopNat (List.replicate r.length 0) r).length = r.length := by
    rw [histLoopNat_length, List.length_replicate]
  have hsuf : sufSum (histLoopNat (List.replicate r.length 0) r) j
      = ∑ k in Finset.Ico j r.length, cnt r k := by
    unfold sufSum
    rw [hndlen]
    apply Finset.sum_congr rfl
    intro k _
    exact hist_cnt r hR k
  have htot := pre_add_suf r hR j hj
  omega

theorem seg_succ (l : List Nat) (a len : Nat) :
    seg l a (len+1) = seg l a len ++ [l.getD (a+len) 0] := by
  unfold seg
  rw [List.range'_concat, List.map_append]
  simp

theorem seg_set_outside (l : List Nat) (p v a len : Nat)
    (h : ∀ t, a ≤ t → t < a + len → t ≠ p) :
    seg (l.set p v) a len = seg l a len := by
  unfold seg
  apply List.map_congr_left
  intro t ht
  have hmem := List.mem_range'_1.mp ht
  exact getD_set_ne _ _ _ (Ne.symm (h t hmem.1 hmem.2))

theorem range_split (i N : Nat) (h : i ≤ N) :
    List.range N = List.range i ++ List.range' i (N - i) := by
  have h1 := List.range'_append 0 i (N - i) 1
  simp only [Nat.zero_add, Nat.one_mul] at h1
  rw [show N - i + i = N by omega] at h1
  rw [List.range_eq_range', List.range_eq_range', ← h1]

/-- The scatter pass fills receiver `k`'s segment of `D` with the nodes
whose receiver is `k`, in ascending id order: loop invariant version. -/
theorem scatter_spec (r : List Nat) (hR : ∀ x ∈ r, x < r.length) : ∀ (m i : Nat),
    i + m = r.length → ∀ (d w : List Nat), d.length = r.length → w.length = r.length →
    (∀ k, k < r.length → w.getD k 0
        = ((List.range i).filter (fun j => r.getD j 0 = k)).length) →
    (∀ k, k < r.length →
        seg d (pre r k) (w.getD k 0) = (List.range i).filter (fun j => r.getD j 0 = k)) →
    ∀ k, k < r.length →
      seg (scatterLoop r (calcDelta r) (List.range' i m) (d, w)).1 (pre r k) (cnt r k)
        = (List.range r.length).filter (fun j => r.getD j 0 = k) := by
  intro m
  induction m with
  | zero =>
    intro i hi d w hdlen hwlen hw hd k hk
    have hiN : i = r.length := by omega
    subst hiN
    show seg d (pre r k) (cnt r k) = _
    have h1 := hd k hk
    rw [hw k hk] at h1
    rw [show cnt r k = ((List.range r.length).filter (fun j => r.getD j 0 = k)).length from rfl]
    exact h1
  | succ m ih =>
    intro i hi d w hdlen hwlen hw hd k hk
    have hiN : i < r.length := by omega
    have hri : r.getD i 0 < r.length := hR _ (getD_mem_of_lt r i hiN)
    rw [List.range'_succ]
    show seg (scatterLoop r (calcDelta r) (List.range' (i+1) m)
      (d.set ((calcDelta r).getD (r.getD i 0) 0 + w.getD (r.getD i 0) 0) i,
       w.set (r.getD i 0) (w.getD (r.getD i 0) 0 + 1))).1 (pre r k) (cnt r k) = _
    -- abbreviations
    set ri := r.getD i 0 with hri_def
    have hdelta : (calcDelta r).getD ri 0 = pre r ri := calcDelta_eq_pre r hR ri (Nat.le_of_lt hri)
    -- the split of range r.length at i, and the strict prefix-count bound
    have hsplit := range_split i r.length (Nat.le_of_lt hiN)
    have hcnt_split : ∀ k', cnt r k'
        = ((List.range i).filter (fun j => r.getD j 0 = k')).length
          + ((List.range' i (r.length - i)).filter (fun j => r.getD j 0 = k')).length := by
      intro k'
      rw [show cnt r k' = ((List.range r.length).filter (fun j => r.getD j 0 = k')).length from rfl]
      rw [hsplit, List.filter_append, List.length_append]
    have hstrict : w.getD ri 0 < cnt r ri := by
      rw [hw ri hri, hcnt_split ri]
      have hmem : i ∈ (List.range' i (r.length - i)).filter (fun j => r.getD j 0 = ri) := by
        rw [List.mem_filter]
        refine ⟨by rw [List.mem_range'_1]; omega, decide_eq_true hri_def.symm⟩
      have := List.length_pos_of_mem hmem
      omega
    have hwle : ∀ k', k' < r.length → w.getD k' 0 ≤ cnt r k' := by
      intro k' hk'
      rw [hw k' hk', hcnt_split k']
      omega
    have hpN : pre r ri + cnt r ri ≤ r.length := by
      have h1 : pre r (ri + 1) ≤ pre r r.length := pre_mono r hri
      rw [pre_succ, pre_total r hR] at h1
      exact h1
    have hplt : pre r ri + w.getD ri 0 < d.length := by
      rw [hdlen]; omega
    -- apply the induction hypothesis at i+1
    rw [hdelta]
    apply ih (i+1) (by omega) _ _ (by rw [List.length_set]; exact hdlen)
        (by rw [List.length_set]; exact hwlen)
    · -- counts after this step
      intro k' hk'
      rw [List.range_succ, List.filter_append]
      by_cases hkri : k' = ri
      · subst hkri
        rw [getD_set_self _ _ _ _ (by rw [hwlen]; exact hri), hw ri hri]
        simp only [List.filter_cons, List.filter_nil]
        simp
      · rw [getD_set_ne _ _ _ (fun h => hkri h.symm), hw k' hk']
        have hdec : decide (r.getD i 0 = k') = false :=
          decide_eq_false (fun h => hkri (h.symm.trans hri_def.symm))
        simp only [List.filter_cons, List.filter_nil]
        rw [if_neg (by rw [hdec]; exact Bool.false_ne_true), List.length_append, List.length_nil]
        omega
    · -- segments after this step
      intro k' hk'
      rw [List.range_succ, List.filter_append]
      by_cases hkri : k' = ri
      · subst hkri
        rw [getD_set_self _ _ _ _ (by rw [hwlen]; exact hri)]
        rw [seg_succ, seg_set_outside _ _ _ _ _ (by intro t h1 h2; omega)]
        rw [hd ri hri]
        rw [getD_set_self _ _ _ _ hplt]
        simp only [List.filter_cons, List.filter_nil]
        simp
      · rw [getD_set_ne _ _ _ (fun h => hkri h.symm)]
        have hdec : decide (r.getD i 0 = k') = false :=
          decide_eq_false (fun h => hkri (h.symm.trans hri_def.symm))
        rw [seg_set_outside]
        · rw [hd k' hk']
          simp only [List.filter_cons, List.filter_nil]
          rw [if_neg (by rw [hdec]; exact Bool.false_ne_true), List.append_nil]
        · intro t h1 h2
          have hwk' := hwle k' hk'
          rcases Nat.lt_or_ge k' ri with hlt | hge
          · have hmono : pre r (k'+1) ≤ pre r ri := pre_mono r hlt
            rw [pre_succ] at hmono
            omega
          · have hgt : ri < k' := lt_of_le_of_ne hge (fun h => hkri h.symm)
            have hmono : pre r (ri+1) ≤ pre r k' := pre_mono r hgt
            rw [pre_succ] at hmono
            omega
    · exact hk

theorem calcD_seg (r : List Nat) (hR : ∀ x ∈ r, x < r.length) (k : Nat) (hk : k < r.length) :
    seg (calcD r) (pre r k) (cnt r k) = (List.range r.length).filter (fun j => r.getD j 0 = k) := by
  have h := scatter_spec r hR r.length 0 (by omega)
    (List.replicate r.length 0) (List.replicate r.length 0)
    (by rw [List.length_replicate]) (by rw [List.length_replicate])
    (by intro k' _; rw [getD_replicate_self]; simp)
    (by intro k' _; rw [getD_replicate_self]; rfl)
    k hk
  rw [← List.range_eq_range'] at h
  exact h

/-- Central corollary: the donor segment both builders scan for node `n`
is exactly the ascending list of `n`'s donors (self-loop still included
when `n` is its own receiver). -/
theorem donorSeg_eq (r : List Nat) (hR : ∀ x ∈ r, x < r.length) (n : Nat) (hn : n < r.length) :
    donorSeg (calcD r) (calcDelta r) n
      = (List.range r.length).filter (fun j => r.getD j 0 = n) := by
  show seg (calcD r) ((calcDelta r).getD n 0)
      ((calcDelta r).getD (n+1) 0 - (calcDelta r).getD n 0) = _
  rw [calcDelta_eq_pre r hR n (by omega), calcDelta_eq_pre r hR (n+1) (by omega), pre_succ]
  rw [show pre r n + cnt r n - pre r n = cnt r n by omega]
  exact calcD_seg r hR n hn

/-! ### Receiver-iteration lemmas -/

theorem iterR_add (r : List Nat) : ∀ (a b i : Nat),
    iterR r (a + b) i = iterR r b (iterR r a i) := by
  intro a
  induction a with
  | zero => intro b i; rw [Nat.zero_add]; rfl
  | succ a ih =>
    intro b i
    show iterR r (a + 1 + b) i = _
    rw [show a + 1 + b = (a + b) + 1 by omega]
    show iterR r (a + b) (r.getD i 0) = _
    rw [ih b (r.getD i 0)]
    rfl

theorem iterR_base (r : List Nat) (b : Nat) (hb : IsBase r b) : ∀ k, iterR r k b = b := by
  intro k
  induction k with
  | zero => rfl
  | succ k ih =>
    show iterR r k (r.getD b 0) = b
    rw [hb]
    exact ih

theorem iterR_lt (r : List Nat) (hR : ∀ x ∈ r, x < r.length) (i : Nat) (hi : i < r.length) :
    ∀ k, iterR r k i < r.length := by
  intro k
  induction k generalizing i with
  | zero => exact hi
  | succ k ih =>
    show iterR r k (r.getD i 0) < r.length
    exact ih _ (hR _ (getD_mem_of_lt r i hi))

theorem iterR_stable (r : List Nat) (hF : Forest r) (i : Nat) (hi : i < r.length) (k : Nat) :
    iterR r (r.length + k) i = iterR r r.length i := by
  rw [iterR_add]
  exact iterR_base r _ (hF.2 i hi) k

/-- Subtrees are closed upward: a donor of a subtree member is a member. -/
theorem inSubtree_donor (r : List Nat) (hF : Forest r) (b n m : Nat) (hm : m < r.length)
    (hrm : r.getD m 0 = n) (hn : InSubtree r b n) : InSubtree r b m := by
  have h1 : iterR r (r.length + 1) m = iterR r r.length m := iterR_stable r hF m hm 1
  have h2 : iterR r (r.length + 1) m = iterR r r.length n := by
    rw [show r.length + 1 = 1 + r.length by omega]
    rw [iterR_add]
    show iterR r r.length (r.getD m 0) = _
    rw [hrm]
  show iterR r r.length m = b
  rw [← h1, h2]
  exact hn

/-- Subtrees are closed downward along the receiver link. -/
theorem inSubtree_receiver (r : List Nat) (hF : Forest r) (b m : Nat) (hm : m < r.length)
    (hmem : InSubtree r b m) : InSubtree r b (r.getD m 0) := by
  have h1 : iterR r (r.length + 1) m = iterR r r.length m := iterR_stable r hF m hm 1
  show iterR r r.length (r.getD m 0) = b
  have h2 : iterR r (r.length + 1) m = iterR r r.length (r.getD m 0) := by
    rw [show r.length + 1 = 1 + r.length by omega, iterR_add]
    rfl
  rw [← h2, h1]
  exact hmem

/-- Each subtree member drains to `b`, so `b` is determined by the member. -/
theorem inSubtree_self (r : List Nat) (hF : Forest r) (b : Nat) (hb : IsBase r b) :
    InSubtree r b b := iterR_base r b hb r.length

/-- Distance to the base along receiver links grows by one on each donor step
(stated via `Nat.find` over the first base on the iteration path). -/
theorem find_baseDist_donor (r : List Nat) (n m : Nat) (hrm : r.getD m 0 = n) (hmn : m ≠ n)
    (h' : ∃ k, IsBase r (iterR r k m)) (h : ∃ k, IsBase r (iterR r k n)) :
    Nat.find h' = Nat.find h + 1 := by
  rw [Nat.find_eq_iff]
  constructor
  · show IsBase r (iterR r (Nat.find h + 1) m)
    show IsBase r (iterR r (Nat.find h) (r.getD m 0))
    rw [hrm]
    exact Nat.find_spec h
  · intro k hk
    match k with
    | 0 =>
      show ¬IsBase r m
      unfold IsBase
      rw [hrm]
      exact fun hc => hmn hc.symm
    | k'+1 =>
      show ¬IsBase r (iterR r k' (r.getD m 0))
      rw [hrm]
      exact Nat.find_min h (by omega)

/-! ### Write-sequence algebra -/

theorem writeSeq_append (s : List Nat) : ∀ (l1 l2 : List Nat) (a : Nat),
    writeSeq s a (l1 ++ l2) = writeSeq (writeSeq s a l1) (a + l1.length) l2 := by
  intro l1
  induction l1 generalizing s with
  | nil => intro l2 a; simp [writeSeq]
  | cons x t ih =>
    intro l2 a
    show writeSeq (s.set a x) (a+1) (t ++ l2) = _
    rw [ih]
    show _ = writeSeq (writeSeq (s.set a x) (a+1) t) (a + (t.length + 1)) l2
    rw [show a + 1 + t.length = a + (t.length + 1) by omega]

/-- The recursive builder refines the spec preorder: it overwrites
`s[inc..]` with the preorder sequence of `n`'s subtree and returns the
position of the last element written. -/
theorem buildStack_eq_preorder (r : List Nat) (hF : Forest r) :
    ∀ (fuel n : Nat), n < r.length →
    ∀ h : ∃ k, IsBase r (iterR r k n), r.length + 1 ≤ fuel + Nat.find h →
    ∀ (s : List Nat) (inc : Nat),
      buildStack (calcD r) (calcDelta r) fuel n s inc
        = some (writeSeq s inc (preorder r fuel n),
            inc + (preorder r fuel n).length - 1) := by
  intro fuel
  induction fuel with
  | zero =>
    intro n hn h hfuel s inc
    have hle : Nat.find h ≤ r.length := Nat.find_le (hF.2 n hn)
    exact absurd hfuel (by omega)
  | succ fuel ih =>
    intro n hn h hfuel s inc
    show goDonors (buildStack (calcD r) (calcDelta r) fuel) n
        (donorSeg (calcD r) (calcDelta r) n) (s.set inc n) inc = _
    rw [donorSeg_eq r hF.1 n hn]
    have hgo : ∀ ms : List Nat, (∀ m ∈ ms, m < r.length ∧ r.getD m 0 = n) →
        ∀ (s' : List Nat) (inc' : Nat),
        goDonors (buildStack (calcD r) (calcDelta r) fuel) n ms s' inc'
          = some (writeSeq s' (inc' + 1)
                (preorderList (preorder r fuel) (ms.filter (fun m => m ≠ n))),
              inc' + (preorderList (preorder r fuel)
                (ms.filter (fun m => m ≠ n))).length) := by
      intro ms
      induction ms with
      | nil => intro _ s' inc'; rfl
      | cons m ms' ihm =>
        intro hms s' inc'
        have hm := hms m (List.mem_cons_self m ms')
        show (if m = n then _ else _) = _
        by_cases hmn : m = n
        · rw [if_pos hmn,
            ihm (fun x hx => hms x (List.mem_cons_of_mem _ hx)) s' inc',
            List.filter_cons,
            if_neg (by rw [decide_eq_false (not_not_intro hmn)]; exact Bool.false_ne_true)]
        · rw [if_neg hmn]
          have h' : ∃ k, IsBase r (iterR r k m) := ⟨r.length, hF.2 m hm.1⟩
          have hd' : Nat.find h' = Nat.find h + 1 := find_baseDist_donor r n m hm.2 hmn h' h
          have hchild := ih m hm.1 h' (by omega) s' (inc' + 1)
          rw [hchild]
          show goDonors (buildStack (calcD r) (calcDelta r) fuel) n ms'
              (writeSeq s' (inc' + 1) (preorder r fuel m))
              (inc' + 1 + (preorder r fuel m).length - 1) = _
          rw [show inc' + 1 + (preorder r fuel m).length - 1
              = inc' + (preorder r fuel m).length by omega]
          rw [ihm (fun x hx => hms x (List.mem_cons_of_mem _ hx)) _ _]
          rw [List.filter_cons, if_pos (decide_eq_true hmn)]
          show _ = some (writeSeq s' (inc' + 1)
              (preorder r fuel m ++ preorderList (preorder r fuel)
                (ms'.filter (fun m => m ≠ n))),
            inc' + (preorder r fuel m ++ preorderList (preorder r fuel)
                (ms'.filter (fun m => m ≠ n))).length)
          rw [writeSeq_append]
          rw [show inc' + 1 + (preorder r fuel m).length
              = inc' + (preorder r fuel m).length + 1 by omega]
          rw [List.length_append]
          rw [show inc' + ((preorder r fuel m).length
              + (preorderList (preorder r fuel) (ms'.filter (fun m => m ≠ n))).length)
              = inc' + (preorder r fuel m).length
                + (preorderList (preorder r fuel) (ms'.filter (fun m => m ≠ n))).length
              by omega]
    rw [hgo _ (by
      intro m hm
      have h1 := List.mem_filter.mp hm
      exact ⟨List.mem_range.mp h1.1, of_decide_eq_true h1.2⟩) (s.set inc n) inc]
    rw [List.filter_filter]
    show _ = some (writeSeq (s.set inc n) (inc + 1)
        (preorderList (preorder r fuel) (donorsOf r n)),
      inc + ((preorderList (preorder r fuel) (donorsOf r n)).length + 1) - 1)
    rw [show inc + ((preorderList (preorder r fuel) (donorsOf r n)).length + 1) - 1
        = inc + (preorderList (preorder r fuel) (donorsOf r n)).length by omega]
    rfl

theorem mem_preorderList (rec : Nat → List Nat) (j : Nat) : ∀ ms : List Nat,
    j ∈ preorderList rec ms ↔ ∃ m ∈ ms, j ∈ rec m := by
  intro ms
  induction ms with
  | nil => simp [preorderList]
  | cons m ms' ih =>
    show j ∈ rec m ++ preorderList rec ms' ↔ _
    rw [List.mem_append, ih]
    constructor
    · rintro (hj | ⟨m', hm', hj⟩)
      · exact ⟨m, List.mem_cons_self m ms', hj⟩
      · exact ⟨m', List.mem_cons_of_mem _ hm', hj⟩
    · rintro ⟨m', hm', hj⟩
      rcases List.mem_cons.mp hm' with h1 | h1
      · exact Or.inl (h1 ▸ hj)
      · exact Or.inr ⟨m', h1, hj⟩

/-- Every member of the preorder sequence reaches the root by iterating the
receiver map, in fewer steps than the fuel. -/
theorem mem_preorder_reaches (r : List Nat) : ∀ (fuel n j : Nat),
    j ∈ preorder r fuel n → ∃ k, k < fuel ∧ iterR r k j = n := by
  intro fuel
  induction fuel with
  | zero => intro n j hj; exact absurd hj (List.not_mem_nil j)
  | succ fuel ih =>
    intro n j hj
    rcases List.mem_cons.mp hj with h1 | h1
    · exact ⟨0, Nat.succ_pos fuel, h1⟩
    · rcases (mem_preorderList _ j _).mp h1 with ⟨m, hm, hjm⟩
      rcases ih m j hjm with ⟨k, hk, hiter⟩
      have hmdon := List.mem_filter.mp hm
      have hrm : r.getD m 0 = n := by
        have := of_decide_eq_true (Bool.and_elim_right hmdon.2)
        exact this
      refine ⟨k + 1, by omega, ?_⟩
      rw [iterR_add r k 1 j]
      show r.getD (iterR r k j) 0 = n
      rw [hiter, hrm]

/-- Members of the preorder sequence are the root or in-range nodes. -/
theorem mem_preorder_lt (r : List Nat) : ∀ (fuel n j : Nat),
    j ∈ preorder r fuel n → j = n ∨ j < r.length := by
  intro fuel
  induction fuel with
  | zero => intro n j hj; exact absurd hj (List.not_mem_nil j)
  | succ fuel ih =>
    intro n j hj
    rcases List.mem_cons.mp hj with h1 | h1
    · exact Or.inl h1
    · rcases (mem_preorderList _ j _).mp h1 with ⟨m, hm, hjm⟩
      have hmlt : m < r.length := List.mem_range.mp (List.mem_filter.mp hm).1
      rcases ih m j hjm with h2 | h2
      · exact Or.inr (h2 ▸ hmlt)
      · exact Or.inr h2

/-- Completeness: a node whose first arrival at `n` takes `k < fuel` steps
is listed in the preorder sequence of `n`. -/
theorem reaches_mem_preorder (r : List Nat) (hR : ∀ x ∈ r, x < r.length) : ∀ (k : Nat),
    ∀ (fuel n j : Nat), k < fuel → iterR r k j = n → (∀ k', k' < k → iterR r k' j ≠ n) →
    j < r.length → j ∈ preorder r fuel n := by
  intro k
  induction k with
  | zero =>
    intro fuel n j hfuel hiter _ _
    match fuel, hfuel with
    | fuel+1, _ =>
      rw [show n = j from hiter.symm]
      exact List.mem_cons_self j _
  | succ k ih =>
    intro fuel n j hfuel hiter hmin hjlt
    match fuel, hfuel with
    | fuel+1, hfuel =>
      have hxlt : iterR r k j < r.length := iterR_lt r hR j hjlt k
      have hstep : r.getD (iterR r k j) 0 = n := by
        rw [← hiter, iterR_add r k 1 j]
        rfl
      have hxn : iterR r k j ≠ n := hmin k (Nat.lt_succ_self k)
      have hdon : iterR r k j ∈ donorsOf r n := by
        apply List.mem_filter.mpr
        refine ⟨List.mem_range.mpr hxlt, ?_⟩
        show (decide (iterR r k j ≠ n) && decide (r.getD (iterR r k j) 0 = n)) = true
        rw [decide_eq_true hxn, decide_eq_true hstep]
        rfl
      have hjin : j ∈ preorder r fuel (iterR r k j) := by
        apply ih fuel _ j (by omega) rfl _ hjlt
        intro k' hk' hc
        have : iterR r (k'+1) j = n := by
          rw [iterR_add r k' 1 j]
          show r.getD (iterR r k' j) 0 = n
          rw [hc, hstep]
        exact hmin (k'+1) (by omega) this
      show j ∈ n :: preorderList (preorder r fuel) (donorsOf r n)
      apply List.mem_cons_of_mem
      exact (mem_preorderList _ j _).mpr ⟨_, hdon, hjin⟩

/-- The preorder sequence with fuel `N+1` lists exactly the subtree of a
base-level root. -/
theorem mem_preorder_iff (r : List Nat) (hF : Forest r) (b : Nat) (hb : b < r.length)
    (hbase : IsBase r b) (j : Nat) :
    j ∈ preorder r (r.length + 1) b ↔ j < r.length ∧ InSubtree r b j := by
  constructor
  · intro hj
    have hjlt : j < r.length := by
      rcases mem_preorder_lt r _ b j hj with h1 | h1
      · exact h1 ▸ hb
      · exact h1
    refine ⟨hjlt, ?_⟩
    rcases mem_preorder_reaches r _ b j hj with ⟨k, hk, hiter⟩
    show iterR r r.length j = b
    have hkN : k ≤ r.length := by omega
    rw [show r.length = k + (r.length - k) by omega, iterR_add, hiter]
    exact iterR_base r b hbase _
  · rintro ⟨hjlt, hsub⟩
    have hex : ∃ k, iterR r k j = b := ⟨r.length, hsub⟩
    apply reaches_mem_preorder r hF.1 (Nat.find hex) (r.length + 1) b j
    · have : Nat.find hex ≤ r.length := Nat.find_le hsub
      omega
    · exact Nat.find_spec hex
    · intro k' hk'
      exact Nat.find_min hex hk'
    · exact hjlt

/-! ### Iterative-walker support lemmas -/

theorem findUnstamped_none (sid : List Int) (b : Nat) : ∀ l : List Nat,
    findUnstamped sid b l = none → ∀ m ∈ l, sid.getD m 0 = (b : Int) := by
  intro l
  induction l with
  | nil => intro _ m hm; exact absurd hm (List.not_mem_nil m)
  | cons x xs ih =>
    intro hnone m hm
    by_cases hx : sid.getD x 0 ≠ (b : Int)
    · exact absurd hnone (by show (if sid.getD x 0 ≠ (b:Int) then _ else _) ≠ _; rw [if_pos hx]; simp)
    · have hx' : sid.getD x 0 = (b : Int) := not_not.mp hx
      rcases List.mem_cons.mp hm with h1 | h1
      · exact h1 ▸ hx'
      · have heq : findUnstamped sid b (x :: xs) = findUnstamped sid b xs := by
          show (if sid.getD x 0 ≠ (b:Int) then _ else _) = _
          rw [if_neg hx]
        exact ih (heq ▸ hnone) m h1

theorem findUnstamped_some (sid : List Int) (b : Nat) : ∀ (l : List Nat) (m : Nat),
    findUnstamped sid b l = some m → m ∈ l ∧ sid.getD m 0 ≠ (b : Int) := by
  intro l
  induction l with
  | nil => intro m hm; exact absurd hm (by simp [findUnstamped])
  | cons x xs ih =>
    intro m hm
    by_cases hx : sid.getD x 0 ≠ (b : Int)
    · have : findUnstamped sid b (x :: xs) = some x := by
        show (if sid.getD x 0 ≠ (b:Int) then _ else _) = _
        rw [if_pos hx]
      rw [this] at hm
      cases hm
      exact ⟨List.mem_cons_self x xs, hx⟩
    · have : findUnstamped sid b (x :: xs) = findUnstamped sid b xs := by
        show (if sid.getD x 0 ≠ (b:Int) then _ else _) = _
        rw [if_neg hx]
      rw [this] at hm
      have h1 := ih m hm
      exact ⟨List.mem_cons_of_mem _ h1.1, h1.2⟩

theorem base_in_subtree_eq (r : List Nat) (b n : Nat) (hsub : InSubtree r b n)
    (hn : IsBase r n) : n = b :=
  (iterR_base r n hn r.length).symm.trans hsub

theorem iterR_cycle_mul (r : List Nat) (p n : Nat) (hp : iterR r p n = n) :
    ∀ c, iterR r (c * p) n = n := by
  intro c
  induction c with
  | zero => rw [Nat.zero_mul]; rfl
  | succ c ih =>
    rw [show (c+1) * p = c * p + p by ring, iterR_add, ih, hp]

/-- A node on a receiver-cycle is base-level (under the forest invariant the
only cycles are the base self-loops). -/
theorem cycle_is_base (r : List Nat) (hF : Forest r) (p n : Nat) (hp : 1 ≤ p)
    (hn : n < r.length) (hcyc : iterR r p n = n) : IsBase r n := by
  have h1 : iterR r (r.length * p) n = n := iterR_cycle_mul r p n hcyc r.length
  have h2 : r.length ≤ r.length * p := Nat.le_mul_of_pos_right _ hp
  have h3 : iterR r (r.length * p) n = iterR r r.length n := by
    rw [show r.length * p = r.length + (r.length * p - r.length) by omega, iterR_add]
    exact iterR_base r _ (hF.2 n hn) _
  have h4 : n = iterR r r.length n := h1.symm.trans h3
  rw [h4]
  exact hF.2 n hn

/-- Upward closure through arbitrary reach: if `j'` reaches `j` and `j` lies
in `b`'s subtree then so does `j'`. -/
theorem inSubtree_of_reaches (r : List Nat) (hF : Forest r) (b j j' : Nat)
    (hj' : j' < r.length) (hreach : ∃ k, iterR r k j' = j) (hj : InSubtree r b j) :
    InSubtree r b j' := by
  rcases hreach with ⟨k, hk⟩
  show iterR r r.length j' = b
  have h1 : iterR r (k + r.length) j' = b := by
    rw [iterR_add, hk]
    exact hj
  have h2 : iterR r (r.length + k) j' = iterR r r.length j' := iterR_stable r hF j' hj' k
  rw [show k + r.length = r.length + k by omega] at h1
  rw [← h2, h1]

/-- One receiver step shortens the minimal distance to `b` by exactly one. -/
theorem find_dist_step (r : List Nat) (b m : Nat) (hmb : m ≠ b)
    (h' : ∃ k, iterR r k m = b) (h : ∃ k, iterR r k (r.getD m 0) = b) :
    Nat.find h' = Nat.find h + 1 := by
  rw [Nat.find_eq_iff]
  constructor
  · show iterR r (Nat.find h + 1) m = b
    show iterR r (Nat.find h) (r.getD m 0) = b
    exact Nat.find_spec h
  · intro k hk
    match k with
    | 0 => exact fun hc => hmb hc
    | k'+1 =>
      show ¬iterR r k' (r.getD m 0) = b
      exact Nat.find_min h (by omega)

/-- Unstamped-subtree count used as the walker's termination measure. -/
def wU (r : List Nat) (b : Nat) (sid : List Int) : Nat :=
  ((Finset.range r.length).filter
    (fun j => InSubtree r b j ∧ sid.getD j 0 ≠ (b : Int))).card

theorem wU_le (r : List Nat) (b : Nat) (sid : List Int) : wU r b sid ≤ r.length := by
  unfold wU
  calc _ ≤ (Finset.range r.length).card := Finset.card_filter_le _ _
    _ = r.length := Finset.card_range _

theorem wU_stamp (r : List Nat) (b : Nat) (sid : List Int) (hlen : sid.length = r.length)
    (m : Nat) (hm : m < r.length)
    (hsub : InSubtree r b m) (hun : sid.getD m 0 ≠ (b : Int)) :
    wU r b (sid.set m (b : Int)) = wU r b sid - 1 ∧ 1 ≤ wU r b sid := by
  have hmem : m ∈ (Finset.range r.length).filter
      (fun j => InSubtree r b j ∧ sid.getD j 0 ≠ (b : Int)) := by
    rw [Finset.mem_filter]
    exact ⟨Finset.mem_range.mpr hm, hsub, hun⟩
  have hset : (Finset.range r.length).filter
      (fun j => InSubtree r b j ∧ (sid.set m (b:Int)).getD j 0 ≠ (b : Int))
      = ((Finset.range r.length).filter
        (fun j => InSubtree r b j ∧ sid.getD j 0 ≠ (b : Int))).erase m := by
    apply Finset.ext
    intro j
    rw [Finset.mem_erase, Finset.mem_filter, Finset.mem_filter]
    constructor
    · rintro ⟨hjr, hjsub, hjun⟩
      have hjm : j ≠ m := by
        intro hc
        subst hc
        rw [getD_set_self _ _ _ _ (by rw [hlen]; exact hm)] at hjun
        exact hjun rfl
      rw [getD_set_ne _ _ _ (fun hc => hjm hc.symm)] at hjun
      exact ⟨hjm, hjr, hjsub, hjun⟩
    · rintro ⟨hjm, hjr, hjsub, hjun⟩
      rw [getD_set_ne _ _ _ (fun hc => hjm hc.symm)]
      exact ⟨hjr, hjsub, hjun⟩
  constructor
  · unfold wU
    rw [hset, Finset.card_erase_of_mem hmem]
  · exact Finset.card_pos.mpr ⟨m, hmem⟩

theorem find_congr_pred {p q : Nat → Prop} [DecidablePred p] [DecidablePred q]
    (hpq : ∀ k, p k ↔ q k) (hp : ∃ k, p k) (hq : ∃ k, q k) :
    Nat.find hp = Nat.find hq := by
  apply Nat.le_antisymm
  · exact Nat.find_le ((hpq _).mpr (Nat.find_spec hq))
  · exact Nat.find_le ((hpq _).mp (Nat.find_spec hp))

/-- Loop invariant of the non-recursive walker for root `b`, relative to the
stamp array `sid0` the call started from: the current node lies in `b`'s
subtree, the whole downstream path from it is stamped, stamped nodes lie in
`b`'s subtree, every stamped node off the current downstream path has its
whole subtree stamped, and nodes outside `b`'s subtree are untouched. -/
structure WInv (r : List Nat) (b : Nat) (sid0 : List Int) (n : Nat) (nprev : Int)
    (sid : List Int) : Prop where
  hn_lt : n < r.length
  hn_sub : InSubtree r b n
  hlen : sid.length = r.length
  hpath : ∀ k : Nat, sid.getD (iterR r k n) 0 = (b : Int)
  hstamp_sub : ∀ j, j < r.length → sid.getD j 0 = (b : Int) → InSubtree r b j
  hoff : ∀ x, x < r.length → sid.getD x 0 = (b : Int) → (¬ ∃ k, iterR r k n = x) →
      ∀ j, j < r.length → (∃ k, iterR r k j = x) → sid.getD j 0 = (b : Int)
  hout : ∀ j, ¬(j < r.length ∧ InSubtree r b j) → sid.getD j 0 = sid0.getD j 0
  hexit : (n : Int) = nprev → ∀ j, j < r.length → InSubtree r b j → sid.getD j 0 = (b : Int)

/-- When every donor of the current node is already stamped, the whole
subtree of the current node is stamped. -/
theorem descend_closure (r : List Nat) (hF : Forest r) (b : Nat) (hbase : IsBase r b)
    (n : Nat) (nprev : Int) (sid0 sid : List Int)
    (inv : WInv r b sid0 n nprev sid)
    (hall : ∀ m, m < r.length → r.getD m 0 = n → sid.getD m 0 = (b : Int)) :
    ∀ j, j < r.length → (∃ k, iterR r k j = n) → sid.getD j 0 = (b : Int) := by
  intro j hj hreach
  have hk := Nat.find_spec hreach
  cases hknat : Nat.find hreach with
  | zero =>
    rw [hknat] at hk
    have hjn : j = n := hk
    rw [hjn]
    exact inv.hpath 0
  | succ k' =>
    rw [hknat] at hk
    have hstep : r.getD (iterR r k' j) 0 = n := by
      rw [← hk, iterR_add r k' 1 j]
      rfl
    have hx1lt : iterR r k' j < r.length := iterR_lt r hF.1 j hj k'
    have hx1n : iterR r k' j ≠ n := by
      intro hc
      exact Nat.find_min hreach (show k' < Nat.find hreach by omega) hc
    have hx1stamp : sid.getD (iterR r k' j) 0 = (b : Int) := hall _ hx1lt hstep
    have hx1off : ¬ ∃ t, iterR r t n = iterR r k' j := by
      rintro ⟨t, ht⟩
      have hcyc : iterR r (t+1) n = n := by
        rw [iterR_add r t 1 n, ht]
        exact hstep
      have hnbase : IsBase r n := cycle_is_base r hF (t+1) n (by omega) inv.hn_lt hcyc
      have hnb : n = b := base_in_subtree_eq r b n inv.hn_sub hnbase
      apply hx1n
      rw [← ht, hnb, iterR_base r b hbase t]
    exact inv.hoff _ hx1lt hx1stamp hx1off j hj ⟨k', rfl⟩

/-- Master lemma for the walker loop: from any invariant state, with fuel
exceeding the termination measure, the loop exits and stamps exactly the
subtree of `b` (leaving all other entries as they started). -/
theorem nrGo_spec (r : List Nat) (hF : Forest r) (b : Nat) (hb : b < r.length)
    (hbase : IsBase r b) (sid0 : List Int) :
    ∀ (phi : Nat), ∀ (fuel n : Nat) (nprev : Int) (s : List Nat) (sid : List Int) (inc : Nat),
    WInv r b sid0 n nprev sid →
    (∀ h : ∃ k, iterR r k n = b, wU r b sid * (r.length + 1) + Nat.find h ≤ phi) →
    phi + 2 ≤ fuel →
    ∃ out : List Nat × List Int × Nat,
      buildStackNrGo r (calcD r) (calcDelta r) b fuel n nprev s sid inc = some out ∧
      out.2.1.length = r.length ∧
      (∀ j, j < r.length → InSubtree r b j → out.2.1.getD j 0 = (b : Int)) ∧
      (∀ j, ¬(j < r.length ∧ InSubtree r b j) → out.2.1.getD j 0 = sid0.getD j 0) := by
  intro phi
  induction phi using Nat.strong_induction_on with
  | _ phi ih =>
  intro fuel n nprev s sid inc inv hphi hfuel
  obtain ⟨f, rfl⟩ : ∃ f, fuel = f + 1 := ⟨fuel - 1, by omega⟩
  have hunfold : buildStackNrGo r (calcD r) (calcDelta r) b (f+1) n nprev s sid inc
      = if (n : Int) = nprev then some (s, sid, inc)
        else match findUnstamped sid b (donorSeg (calcD r) (calcDelta r) n) with
        | some m => buildStackNrGo r (calcD r) (calcDelta r) b f m (n : Int)
            (s.set (inc+1) m) (sid.set m (b : Int)) (inc+1)
        | none => buildStackNrGo r (calcD r) (calcDelta r) b f (r.getD n 0) (n : Int)
            s sid inc := rfl
  by_cases hnp : (n : Int) = nprev
  · refine ⟨(s, sid, inc), ?_, inv.hlen, inv.hexit hnp, inv.hout⟩
    rw [hunfold, if_pos hnp]
  · have hEx : ∃ k, iterR r k n = b := ⟨r.length, inv.hn_sub⟩
    have hdist := hphi hEx
    cases hfind : findUnstamped sid b (donorSeg (calcD r) (calcDelta r) n) with
    | some m =>
      -- ascend to the first unstamped donor
      have hm := findUnstamped_some sid b _ m hfind
      have hmlist := hm.1
      rw [donorSeg_eq r hF.1 n inv.hn_lt] at hmlist
      have hmf := List.mem_filter.mp hmlist
      have hmlt : m < r.length := List.mem_range.mp hmf.1
      have hmrec : r.getD m 0 = n := of_decide_eq_true hmf.2
      have hmun : sid.getD m 0 ≠ (b : Int) := hm.2
      have hmsub : InSubtree r b m := inSubtree_donor r hF b n m hmlt hmrec inv.hn_sub
      have hbstamp : sid.getD b 0 = (b : Int) := by
        have h1 := inv.hpath r.length
        rw [inv.hn_sub] at h1
        exact h1
      have hmb : m ≠ b := fun hc => hmun (hc ▸ hbstamp)
      have hmn : m ≠ n := fun hc => hmun (hc ▸ inv.hpath 0)
      have inv' : WInv r b sid0 m (n : Int) (sid.set m (b : Int)) := by
        constructor
        · exact hmlt
        · exact hmsub
        · rw [List.length_set]; exact inv.hlen
        · intro k
          match k with
          | 0 => exact getD_set_self _ _ _ _ (by rw [inv.hlen]; exact hmlt)
          | k+1 =>
            show (sid.set m (b:Int)).getD (iterR r k (r.getD m 0)) 0 = (b : Int)
            rw [hmrec]
            by_cases hkm : iterR r k n = m
            · rw [hkm]
              exact getD_set_self _ _ _ _ (by rw [inv.hlen]; exact hmlt)
            · rw [getD_set_ne _ _ _ (fun hc => hkm hc.symm)]
              exact inv.hpath k
        · intro j hj hstamp
          by_cases hjm : j = m
          · exact hjm ▸ hmsub
          · rw [getD_set_ne _ _ _ (fun hc => hjm hc.symm)] at hstamp
            exact inv.hstamp_sub j hj hstamp
        · intro x hx hxstamp hxoff j hj hreach
          by_cases hxm : x = m
          · exact absurd ⟨0, hxm.symm⟩ hxoff
          · rw [getD_set_ne _ _ _ (fun hc => hxm hc.symm)] at hxstamp
            have hxoldoff : ¬ ∃ t, iterR r t n = x := by
              rintro ⟨t, ht⟩
              apply hxoff
              refine ⟨t + 1, ?_⟩
              show iterR r t (r.getD m 0) = x
              rw [hmrec]
              exact ht
            have hjold := inv.hoff x hx hxstamp hxoldoff j hj hreach
            by_cases hjm : j = m
            · rw [hjm]
              exact getD_set_self _ _ _ _ (by rw [inv.hlen]; exact hmlt)
            · rw [getD_set_ne _ _ _ (fun hc => hjm hc.symm)]
              exact hjold
        · intro j hj
          have hjm : j ≠ m := fun hc => hj (hc ▸ ⟨hmlt, hmsub⟩)
          rw [getD_set_ne _ _ _ (fun hc => hjm hc.symm)]
          exact inv.hout j hj
        · intro hc
          exact absurd (Int.natCast_inj.mp hc) hmn
      have hWU := wU_stamp r b sid inv.hlen m hmlt hmsub hmun
      have hphi' : ∀ h' : ∃ k, iterR r k m = b,
          wU r b (sid.set m (b:Int)) * (r.length + 1) + Nat.find h' ≤ phi - 1 := by
        intro h'
        have h2 : ∃ k, iterR r k (r.getD m 0) = b := by rw [hmrec]; exact hEx
        have h3 := find_dist_step r b m hmb h' h2
        have h4 : Nat.find h2 = Nat.find hEx :=
          find_congr_pred (fun k => by rw [hmrec]) h2 hEx
        rw [hWU.1]
        have hmul : (wU r b sid - 1) * (r.length + 1)
            = wU r b sid * (r.length + 1) - (r.length + 1) := by
          rw [Nat.sub_mul, Nat.one_mul]
        have hge : r.length + 1 ≤ wU r b sid * (r.length + 1) :=
          Nat.le_mul_of_pos_left _ hWU.2
        omega
      have hphi_pos : 1 ≤ phi := by
        have hge : r.length + 1 ≤ wU r b sid * (r.length + 1) :=
          Nat.le_mul_of_pos_left _ hWU.2
        omega
      rcases ih (phi - 1) (by omega) f m (n : Int) (s.set (inc+1) m)
          (sid.set m (b : Int)) (inc+1) inv' hphi' (by omega) with ⟨out, ho1, ho2, ho3, ho4⟩
      refine ⟨out, ?_, ho2, ho3, ho4⟩
      rw [hunfold, if_neg hnp, hfind]
      exact ho1
    | none =>
      -- all donors stamped: descend
      have hall : ∀ m', m' < r.length → r.getD m' 0 = n → sid.getD m' 0 = (b : Int) := by
        intro m' hm' hrec
        apply findUnstamped_none sid b _ hfind m'
        rw [donorSeg_eq r hF.1 n inv.hn_lt]
        exact List.mem_filter.mpr ⟨List.mem_range.mpr hm', decide_eq_true hrec⟩
      have hclose := descend_closure r hF b hbase n nprev sid0 sid inv hall
      by_cases hnb : n = b
      · -- descending from the root: the loop exits on the next iteration
        subst hnb
        obtain ⟨f', rfl⟩ : ∃ f', f = f' + 1 := ⟨f - 1, by omega⟩
        refine ⟨(s, sid, inc), ?_, inv.hlen, ?_, inv.hout⟩
        · rw [hunfold, if_neg hnp, hfind]
          show buildStackNrGo r (calcD r) (calcDelta r) n (f'+1) (r.getD n 0) (n : Int)
              s sid inc = _
          rw [hbase]
          show (if (n : Int) = (n : Int) then some (s, sid, inc) else _) = _
          rw [if_pos rfl]
        · intro j hj hsub
          exact hclose j hj ⟨r.length, hsub⟩
      · -- descending inside the subtree
        have hrn_lt : r.getD n 0 < r.length := hF.1 _ (getD_mem_of_lt r n inv.hn_lt)
        have inv' : WInv r b sid0 (r.getD n 0) (n : Int) sid := by
          constructor
          · exact hrn_lt
          · exact inSubtree_receiver r hF b n inv.hn_lt inv.hn_sub
          · exact inv.hlen
          · intro k
            exact inv.hpath (k+1)
          · exact inv.hstamp_sub
          · intro x hx hxstamp hxoff j hj hreach
            by_cases hxn : x = n
            · subst hxn
              exact hclose j hj hreach
            · have hxoldoff : ¬ ∃ t, iterR r t n = x := by
                rintro ⟨t, ht⟩
                match t with
                | 0 => exact hxn ht.symm
                | t'+1 => exact hxoff ⟨t', ht⟩
              exact inv.hoff x hx hxstamp hxoldoff j hj hreach
          · exact inv.hout
          · intro hc
            have hrnn : r.getD n 0 = n := Int.natCast_inj.mp hc
            exact absurd (base_in_subtree_eq r b n inv.hn_sub hrnn) hnb
        have hdn : 1 ≤ Nat.find hEx := by
          rcases Nat.eq_zero_or_pos (Nat.find hEx) with h0 | h1
          · have hsp := Nat.find_spec hEx
            rw [h0] at hsp
            exact absurd hsp hnb
          · exact h1
        have hphi' : ∀ h' : ∃ k, iterR r k (r.getD n 0) = b,
            wU r b sid * (r.length + 1) + Nat.find h' ≤ phi - 1 := by
          intro h'
          have h3 := find_dist_step r b n hnb hEx h'
          omega
        have hphi_pos : 1 ≤ phi := by omega
        rcases ih (phi - 1) (by omega) f (r.getD n 0) (n : Int) s sid inc
            inv' hphi' (by omega) with ⟨out, ho1, ho2, ho3, ho4⟩
        refine ⟨out, ?_, ho2, ho3, ho4⟩
        rw [hunfold, if_neg hnp, hfind]
        exact ho1

theorem getD_replicate_lt {α} (n i : Nat) (a d : α) (h : i < n) :
    (List.replicate n a).getD i d = a := by
  rw [List.getD_eq_getElem _ _ (by rw [List.length_replicate]; exact h)]
  exact List.getElem_replicate a _

/-- The non-recursive builder, called on a stamp array in which any node
already stamped with `b` lies in `b`'s subtree with its whole subtree
stamped, terminates with fuel `(N+1)(N+2)` and stamps exactly `b`'s
subtree. -/
theorem buildStackNr_spec (r : List Nat) (hF : Forest r) (b : Nat) (hb : b < r.length)
    (hbase : IsBase r b) (s : List Nat) (sid : List Int) (inc : Nat)
    (hlen : sid.length = r.length)
    (hpre : ∀ j, j < r.length → sid.getD j 0 = (b : Int) →
      InSubtree r b j ∧ ∀ j', j' < r.length → (∃ k, iterR r k j' = j) →
        sid.getD j' 0 = (b : Int)) :
    ∃ out : List Nat × List Int × Nat,
      buildStackNr r (calcD r) (calcDelta r) ((r.length + 1) * (r.length + 2)) b s sid inc
        = some out ∧
      out.2.1.length = r.length ∧
      (∀ j, j < r.length → InSubtree r b j → out.2.1.getD j 0 = (b : Int)) ∧
      (∀ j, ¬(j < r.length ∧ InSubtree r b j) → out.2.1.getD j 0 = sid.getD j 0) := by
  have hbsub : InSubtree r b b := inSubtree_self r hF b hbase
  have inv0 : WInv r b sid b (-1) (sid.set b (b : Int)) := by
    constructor
    · exact hb
    · exact hbsub
    · rw [List.length_set]; exact hlen
    · intro k
      rw [iterR_base r b hbase k]
      exact getD_set_self _ _ _ _ (by rw [hlen]; exact hb)
    · intro j hj hstamp
      by_cases hjb : j = b
      · exact hjb ▸ hbsub
      · rw [getD_set_ne _ _ _ (fun hc => hjb hc.symm)] at hstamp
        exact (hpre j hj hstamp).1
    · intro x hx hxstamp hxoff j hj hreach
      by_cases hxb : x = b
      · exact absurd ⟨0, hxb.symm⟩ hxoff
      · rw [getD_set_ne _ _ _ (fun hc => hxb hc.symm)] at hxstamp
        have h1 := (hpre x hx hxstamp).2 j hj hreach
        by_cases hjb : j = b
        · rw [hjb]
          exact getD_set_self _ _ _ _ (by rw [hlen]; exact hb)
        · rw [getD_set_ne _ _ _ (fun hc => hjb hc.symm)]
          exact h1
    · intro j hj
      have hjb : j ≠ b := fun hc => hj (by rw [hc]; exact ⟨hb, hbsub⟩)
      rw [getD_set_ne _ _ _ (fun hc => hjb hc.symm)]
    · intro hc
      exact absurd hc (by omega)
  have hphi0 : ∀ h : ∃ k, iterR r k b = b,
      wU r b (sid.set b (b : Int)) * (r.length + 1) + Nat.find h
        ≤ r.length * (r.length + 1) := by
    intro h
    have hf0 : Nat.find h = 0 := by
      rw [Nat.find_eq_zero]
      rfl
    have hU := wU_le r b (sid.set b (b : Int))
    have hmul : wU r b (sid.set b (b : Int)) * (r.length + 1)
        ≤ r.length * (r.length + 1) := Nat.mul_le_mul_right _ hU
    omega
  have hfuel : r.length * (r.length + 1) + 2 ≤ (r.length + 1) * (r.length + 2) := by
    have hexp : (r.length + 1) * (r.length + 2)
        = r.length * (r.length + 1) + 2 * r.length + 2 := by ring
    omega
  rcases nrGo_spec r hF b hb hbase sid (r.length * (r.length + 1))
      ((r.length + 1) * (r.length + 2)) b (-1) (s.set inc b) (sid.set b (b : Int)) inc
      inv0 hphi0 hfuel with ⟨out, ho1, ho2, ho3, ho4⟩
  refine ⟨out, ho1, ho2, ho3, ?_⟩
  intro j hj
  exact ho4 j hj

/-- Subtree membership determines the root uniquely. -/
theorem inSubtree_unique (r : List Nat) (b b' j : Nat) (h1 : InSubtree r b j)
    (h2 : InSubtree r b' j) : b = b' := h1.symm.trans h2

/-- Driver loop, non-recursive mode: running the remaining roots `bs` on a
stamp array already characterised by the processed roots `done` yields a
stamp array characterised by `done ++ bs`. -/
theorem driverLoop_nr_spec (r : List Nat) (hF : Forest r) :
    ∀ (bs : List Nat), (∀ x ∈ bs, x < r.length ∧ IsBase r x) →
    ∀ (s : List Nat) (sid : List Int) (inc : Nat) (done : List Nat),
    sid.length = r.length →
    (∀ j, j < r.length →
      ((∀ x ∈ done, InSubtree r x j → sid.getD j 0 = (x : Int)) ∧
       ((¬ ∃ x ∈ done, InSubtree r x j) → sid.getD j 0 = -1))) →
    ∃ out : List Nat × List Int,
      driverLoop r (calcD r) (calcDelta r) .nonRecursive ((r.length + 1) * (r.length + 2))
        bs s sid inc = some out ∧
      out.2.length = r.length ∧
      ∀ j, j < r.length →
        ((∀ x ∈ done ++ bs, InSubtree r x j → out.2.getD j 0 = (x : Int)) ∧
         ((¬ ∃ x ∈ done ++ bs, InSubtree r x j) → out.2.getD j 0 = -1)) := by
  intro bs
  induction bs with
  | nil =>
    intro _ s sid inc done hlen hsid
    refine ⟨(s, sid), rfl, hlen, ?_⟩
    intro j hj
    rw [List.append_nil]
    exact hsid j hj
  | cons b bs' ih =>
    intro hbs s sid inc done hlen hsid
    have hb := hbs b (List.mem_cons_self b bs')
    have hpre : ∀ j, j < r.length → sid.getD j 0 = (b : Int) →
        InSubtree r b j ∧ ∀ j', j' < r.length → (∃ k, iterR r k j' = j) →
          sid.getD j' 0 = (b : Int) := by
      intro j hj hstamp
      by_cases hex : ∃ x ∈ done, InSubtree r x j
      · rcases hex with ⟨x, hxdone, hxsub⟩
        have hxeq : sid.getD j 0 = (x : Int) := (hsid j hj).1 x hxdone hxsub
        have hxb : x = b := Int.natCast_inj.mp (hxeq.symm.trans hstamp)
        subst hxb
        refine ⟨hxsub, ?_⟩
        intro j' hj' hreach
        have hsub' : InSubtree r x j' := inSubtree_of_reaches r hF x j j' hj' hreach hxsub
        exact (hsid j' hj').1 x hxdone hsub'
      · have := (hsid j hj).2 hex
        rw [this] at hstamp
        exact absurd hstamp.symm (by omega)
    rcases buildStackNr_spec r hF b hb.1 hb.2 s sid 0 hlen hpre with ⟨out1, ho1, ho2, ho3, ho4⟩
    have hsid' : ∀ j, j < r.length →
        ((∀ x ∈ done ++ [b], InSubtree r x j → out1.2.1.getD j 0 = (x : Int)) ∧
         ((¬ ∃ x ∈ done ++ [b], InSubtree r x j) → out1.2.1.getD j 0 = -1)) := by
      intro j hj
      constructor
      · intro x hx hxsub
        rcases List.mem_append.mp hx with hxd | hxb
        · by_cases hbj : InSubtree r b j
          · have : x = b := inSubtree_unique r x b j hxsub hbj
            subst this
            exact ho3 j hj hxsub
          · rw [ho4 j (fun hc => hbj hc.2)]
            exact (hsid j hj).1 x hxd hxsub
        · have hxb' : x = b := List.mem_singleton.mp hxb
          subst hxb'
          exact ho3 j hj hxsub
      · intro hnex
        have hbj : ¬ InSubtree r b j := fun hc =>
          hnex ⟨b, List.mem_append.mpr (Or.inr (List.mem_singleton.mpr rfl)), hc⟩
        rw [ho4 j (fun hc => hbj hc.2)]
        exact (hsid j hj).2 (fun ⟨x, hxd, hxs⟩ =>
          hnex ⟨x, List.mem_append.mpr (Or.inl hxd), hxs⟩)
    rcases ih (fun x hx => hbs x (List.mem_cons_of_mem _ hx)) out1.1 out1.2.1
        (out1.2.2 + 1) (done ++ [b]) ho2 hsid' with ⟨out, hO1, hO2, hO3⟩
    refine ⟨out, ?_, hO2, ?_⟩
    · show (match buildStackNr r (calcD r) (calcDelta r)
          ((r.length + 1) * (r.length + 2)) b s sid 0 with
        | none => none
        | some (s2, sid2, inc2) => driverLoop r (calcD r) (calcDelta r) .nonRecursive
            ((r.length + 1) * (r.length + 2)) bs' s2 sid2 (inc2 + 1)) = some out
      rw [ho1]
      exact hO1
    · intro j hj
      have h1 := hO3 j hj
      rw [show (done ++ [b]) ++ bs' = done ++ b :: bs' by simp] at h1
      exact h1

/-! ### Python-indexing model over `Int` (for the error-handling claim)

The source arrays are NumPy integer arrays: an index in `[-len, len)` is
accepted (negative values wrap around) and anything else raises
`IndexError`.  The `Checked` functions below reproduce those semantics
exactly, with `none` playing the role of a raised error; they settle the
claim about detection of out-of-range receiver values.  The `Nat` model
above is used for claims whose preconditions put all receivers in `[0,N)`,
where the two agree. -/

/-- Python/NumPy index resolution: `[0,len)` used directly, `[-len,0)`
wraps, anything else raises (`none`). -/
def pyIdx (len : Nat) (i : Int) : Option Nat :=
  if 0 ≤ i ∧ i < (len : Int) then some i.toNat
  else if 0 ≤ i + (len : Int) ∧ i + (len : Int) < (len : Int) then some (i + len).toNat
  else none

/-- Checked read `l[i]` with Python index semantics. -/
def pyGet (l : List Int) (i : Int) : Option Int :=
  (pyIdx l.length i).map (fun k => l.getD k 0)

/-- Checked write `l[i] = v` with Python index semantics. -/
def pySet (l : List Int) (i : Int) (v : Int) : Option (List Int) :=
  (pyIdx l.length i).map (fun k => l.set k v)

/-- Histogram pass of `_calculate_temp_arrays` under Python indexing:
`nd[r[i]] += 1`. -/
def histLoopChecked (nd : List Int) : List Int → Option (List Int)
  | [] => some nd
  | x :: xs =>
    match pyGet nd x with
    | none => none
    | some v =>
      match pySet nd x (v + 1) with
      | none => none
      | some nd' => histLoopChecked nd' xs

/-- Reverse prefix-sum pass under Python indexing. -/
def deltaLoopChecked (nd : List Int) : List Int → Nat → Option (List Int)
  | delta, 0 => some delta
  | delta, i+1 =>
    match pyGet delta ((i : Int) + 1), pyGet nd (i : Int) with
    | some a, some c =>
      match pySet delta (i : Int) (a - c) with
      | none => none
      | some delta2 => deltaLoopChecked nd delta2 i
    | _, _ => none

/-- Scatter pass under Python indexing: `ri = r[i]; D[delta[ri]+w[ri]] = i;
w[ri] += 1`. -/
def scatterLoopChecked (r delta : List Int) :
    List Nat → List Int × List Int → Option (List Int × List Int)
  | [], dw => some dw
  | i :: is, (d, w) =>
    match pyGet r (i : Int) with
    | none => none
    | some ri =>
      match pyGet delta ri, pyGet w ri with
      | some a, some c =>
        match pySet d (a + c) (i : Int), pySet w ri (c + 1) with
        | some d2, some w2 => scatterLoopChecked r delta is (d2, w2)
        | _, _ => none
      | _, _ => none

/-- `_calculate_temp_arrays` under Python indexing. -/
def calculateTempArraysChecked (r : List Int) : Option (List Int × List Int) :=
  let np := r.length
  match histLoopChecked (List.replicate np 0) r with
  | none => none
  | some nd =>
    match deltaLoopChecked nd ((List.replicate (np+1) 0).set np (np : Int)) np with
    | none => none
    | some delta =>
      match scatterLoopChecked r delta (List.range np)
          (List.replicate np 0, List.replicate np 0) with
      | none => none
      | some dw => some (delta, dw.1)

/-- Python `range(a, bnd)` as a list of integers. -/
def intRange (a bnd : Int) : List Int :=
  (List.range (bnd - a).toNat).map (fun t => a + t)

/-- Donor loop of the recursive `_build_stack` under Python indexing. -/
def goDonorsChecked (recur : Int → List Int → Nat → Option (List Int × Nat))
    (d : List Int) (n : Int) :
    List Int → List Int → Nat → Option (List Int × Nat)
  | [], s, inc => some (s, inc)
  | i :: is, s, inc =>
    match pyGet d i with
    | none => none
    | some m =>
      if m ≠ n then
        match recur m s (inc + 1) with
        | none => none
        | some (s2, inc2) => goDonorsChecked recur d n is s2 inc2
      else goDonorsChecked recur d n is s inc

/-- The recursive `_build_stack` under Python indexing (with fuel). -/
def buildStackChecked (d delta : List Int) : Nat → Int → List Int → Nat → Option (List Int × Nat)
  | 0, _, _, _ => none
  | fuel+1, n, s, inc =>
    match pySet s (inc : Int) n with
    | none => none
    | some s0 =>
      match pyGet delta n, pyGet delta (n + 1) with
      | some a, some bnd =>
        goDonorsChecked (buildStackChecked d delta fuel) d n (intRange a bnd) s0 inc
      | _, _ => none

/-- Driver loop of `order_nodes_numba` (default recursive mode) under
Python indexing. -/
def driverLoopChecked (d delta : List Int) (fuel : Nat) :
    List Int → List Int → Nat → Option (List Int)
  | [], s, _ => some s
  | b :: bs, s, inc =>
    match buildStackChecked d delta fuel b s inc with
    | none => none
    | some (s2, inc2) => driverLoopChecked d delta fuel bs s2 (inc2 + 1)

/-- `order_nodes_numba` (default recursive mode) under Python indexing. -/
def orderNodesNumbaChecked (receivers baselevels : List Int) (fuel : Nat) :
    Option (List Int) :=
  let np := receivers.length
  match calculateTempArraysChecked receivers with
  | none => none
  | some dd => driverLoopChecked dd.2 dd.1 fuel baselevels (List.replicate np 0) 0

example : orderNodesNumbaChecked [-2, 2, 2] [2] 10 = some [2, 1, 0] := by decide

example : orderNodesNumbaChecked [1,4,1,6,4,4,5,4,6,7] [4] 20
    = some [4,1,0,2,5,6,3,8,7,9] := by decide

theorem pyIdx_bad (len : Nat) (i : Int) (h : (len : Int) ≤ i ∨ i < -(len : Int)) :
    pyIdx len i = none := by
  unfold pyIdx
  rw [if_neg (by omega), if_neg (by omega)]

/-- A receiver value `≥ N` or `< -N` makes the histogram pass raise. -/
theorem histLoopChecked_none (L : Nat) : ∀ (xs : List Int) (nd : List Int), nd.length = L →
    (∃ x ∈ xs, (L : Int) ≤ x ∨ x < -(L : Int)) → histLoopChecked nd xs = none := by
  intro xs
  induction xs with
  | nil =>
    intro nd _ hbad
    rcases hbad with ⟨x, hx, _⟩
    exact absurd hx (List.not_mem_nil x)
  | cons x xs ih =>
    intro nd hlen hbad
    by_cases hxbad : (L : Int) ≤ x ∨ x < -(L : Int)
    · have hget : pyGet nd x = none := by
        unfold pyGet
        rw [hlen, pyIdx_bad L x hxbad]
        rfl
      show (match pyGet nd x with
        | none => none
        | some v => match pySet nd x (v + 1) with
          | none => none
          | some nd2 => histLoopChecked nd2 xs) = none
      rw [hget]
    · have hxs : ∃ y ∈ xs, (L : Int) ≤ y ∨ y < -(L : Int) := by
        rcases hbad with ⟨y, hy, hybad⟩
        rcases List.mem_cons.mp hy with h1 | h1
        · exact absurd (h1 ▸ hybad) hxbad
        · exact ⟨y, h1, hybad⟩
      show (match pyGet nd x with
        | none => none
        | some v => match pySet nd x (v + 1) with
          | none => none
          | some nd2 => histLoopChecked nd2 xs) = none
      cases hget : pyGet nd x with
      | none => rfl
      | some v =>
        show (match pySet nd x (v + 1) with
          | none => none
          | some nd2 => histLoopChecked nd2 xs) = none
        cases hset : pySet nd x (v + 1) with
        | none => rfl
        | some nd2 =>
          show histLoopChecked nd2 xs = none
          apply ih nd2 _ hxs
          have : ∃ k, nd2 = nd.set k (v + 1) := by
            unfold pySet at hset
            cases hidx : pyIdx nd.length x with
            | none => rw [hidx] at hset; exact absurd hset (by simp)
            | some k => rw [hidx] at hset; exact ⟨k, by
                have h2 : some (nd.set k (v+1)) = some nd2 := hset
                exact (Option.some_inj.mp h2).symm⟩
          rcases this with ⟨k, hk⟩
          rw [hk, List.length_set, hlen]

/-- Out-of-range receivers (outside Python's accepted `[-N,N)`) make the
adjacency builder fail during its histogram pass. -/
theorem calcTempChecked_none (r : List Int)
    (hbad : ∃ x ∈ r, (r.length : Int) ≤ x ∨ x < -(r.length : Int)) :
    calculateTempArraysChecked r = none := by
  show (match histLoopChecked (List.replicate r.length 0) r with
    | none => none
    | some nd => match deltaLoopChecked nd
        ((List.replicate (r.length+1) 0).set r.length (r.length : Int)) r.length with
      | none => none
      | some delta => match scatterLoopChecked r delta (List.range r.length)
          (List.replicate r.length 0, List.replicate r.length 0) with
        | none => none
        | some dw => some (delta, dw.1)) = none
  rw [histLoopChecked_none r.length r _ (by rw [List.length_replicate]) hbad]

/-! ### Claim theorems -/

/-- Worked example from the notebook (Braun & Willett test case),
0-indexed. -/
def exampleReceivers : List Nat := [1,4,1,6,4,4,5,4,6,7]

/-- C1: the claim states the recursive and iterative builders produce
identical `S` for every forest and every ordered root list.  The driver's
`non-recursive` branch passes start position `0` instead of the running
cursor (`_build_stack_nr(b, receivers, D, delta, s, stack_id, 0)`), so
with two base-level roots the two modes disagree: on `R = [0,1]` with
roots `[0,1]` the recursive mode returns `[0,1]` while the non-recursive
mode returns `[1,0]`. -/
theorem claim1_driver_bug_eval :
    (orderNodesNumba [0,1] [0,1] .recursive 12).map Prod.fst = some [0,1] ∧
    (orderNodesNumba [0,1] [0,1] .nonRecursive 12).map Prod.fst = some [1,0] :=
  ⟨by decide, by decide⟩

/-- C2: the claim states each root's block starts at the current write
cursor in both modes.  With `R = [0,1,0]` and roots `[0,1]`, non-recursive
mode writes the second root `1` at position `0` (inside the first root's
block) instead of at cursor position `2`: the returned order is `[1,2,0]`,
whereas the recursive mode correctly returns `[0,2,1]`. -/
theorem claim2_driver_cursor_eval :
    (orderNodesNumba [0,1,0] [0,1] .nonRecursive 20).map Prod.fst = some [1,2,0] ∧
    (orderNodesNumba [0,1,0] [0,1] .recursive 20).map Prod.fst = some [0,2,1] :=
  ⟨by decide, by decide⟩

/-- C3: the claim states the returned `S` is a permutation of `[0,N)`.
With `R = [0,0,2,2]` (bases `0` and `2`, supplied once each) the
non-recursive mode returns `[2,3,0,0]`: node `1` is missing and `0`
appears twice, because of the driver's cursor slip. -/
theorem claim3_not_permutation_eval :
    (orderNodesNumba [0,0,2,2] [0,2] .nonRecursive 30).map Prod.fst = some [2,3,0,0] ∧
    (orderNodesNumba [0,0,2,2] [0,2] .nonRecursive 30).map
        (fun p => decide (1 ∈ p.1)) = some false :=
  ⟨by decide, by decide⟩

/-- C4: the claim states every non-base node appears after its receiver in
the returned `S`.  With `R = [0,1,0]` and roots `[0,1]`, non-recursive
mode returns `[1,2,0]`: node `2` (receiver `0`) sits at position `1` while
its receiver `0` sits at position `2`, violating the ordering — again the
driver's cursor slip. -/
theorem claim4_receiver_position_eval :
    (orderNodesNumba [0,1,0] [0,1] .nonRecursive 20).map
        (fun p => decide (p.1.indexOf 0 < p.1.indexOf 2)) = some false := by
  decide

/-- C5: for every receiver array with all values in `[0,N)`, the adjacency
builder returns `delta` of length `N+1` and `D` of length `N`, `delta` is
monotone non-decreasing with `delta[N] = N`, and each slice
`D[delta[k] : delta[k+1]]` is exactly the ascending list of nodes whose
receiver is `k`. -/
theorem claim5_adjacency_builder (r : List Nat) (hR : ∀ x ∈ r, x < r.length) :
    (calcDelta r).length = r.length + 1 ∧
    (calcD r).length = r.length ∧
    (∀ i j, i ≤ j → j ≤ r.length → (calcDelta r).getD i 0 ≤ (calcDelta r).getD j 0) ∧
    (calcDelta r).getD r.length 0 = r.length ∧
    (∀ k, k < r.length →
      seg (calcD r) ((calcDelta r).getD k 0)
          ((calcDelta r).getD (k+1) 0 - (calcDelta r).getD k 0)
        = (List.range r.length).filter (fun j => r.getD j 0 = k)) := by
  refine ⟨calcDelta_length r, calcD_length r, ?_, ?_, ?_⟩
  · intro i j hij hj
    rw [calcDelta_eq_pre r hR i (by omega), calcDelta_eq_pre r hR j hj]
    exact pre_mono r hij
  · rw [calcDelta_eq_pre r hR r.length (le_refl _)]
    exact pre_total r hR
  · intro k hk
    have h := donorSeg_eq r hR k hk
    exact h

/-- Witness for C5 at the notebook's worked example. -/
theorem claim5_adjacency_builder_witness :
    (∀ x ∈ exampleReceivers, x < exampleReceivers.length) ∧
    ((calcDelta exampleReceivers).length = exampleReceivers.length + 1 ∧
    (calcD exampleReceivers).length = exampleReceivers.length ∧
    (∀ i j, i ≤ j → j ≤ exampleReceivers.length →
      (calcDelta exampleReceivers).getD i 0 ≤ (calcDelta exampleReceivers).getD j 0) ∧
    (calcDelta exampleReceivers).getD exampleReceivers.length 0 = exampleReceivers.length ∧
    (∀ k, k < exampleReceivers.length →
      seg (calcD exampleReceivers) ((calcDelta exampleReceivers).getD k 0)
          ((calcDelta exampleReceivers).getD (k+1) 0 - (calcDelta exampleReceivers).getD k 0)
        = (List.range exampleReceivers.length).filter
            (fun j => exampleReceivers.getD j 0 = k))) :=
  ⟨by decide, claim5_adjacency_builder exampleReceivers (by decide)⟩

/-- C6: on the canonical worked example (receivers `[1,4,1,6,4,4,5,4,6,7]`,
single base-level root `4`) both modes return exactly
`S = [4,1,0,2,5,6,3,8,7,9]`. -/
theorem claim6_worked_example :
    (orderNodesNumba exampleReceivers [4] .recursive 132).map Prod.fst
      = some [4,1,0,2,5,6,3,8,7,9] ∧
    (orderNodesNumba exampleReceivers [4] .nonRecursive 132).map Prod.fst
      = some [4,1,0,2,5,6,3,8,7,9] :=
  ⟨by decide, by decide⟩

/-- C7: on a well-formed forest, for any base-level root whose stamp value
is fresh in `stack_id`, the iterative builder's main loop terminates within
`(N+1)(N+2)` iterations — the fuelled model returns a result rather than
running out. -/
theorem claim7_iterative_terminates (r : List Nat) (b : Nat) (s : List Nat)
    (sid : List Int) (inc : Nat) (hF : Forest r) (hb : b < r.length)
    (hbase : IsBase r b) (hlen : sid.length = r.length)
    (hfresh : ∀ j, j < r.length → sid.getD j 0 ≠ (b : Int)) :
    (buildStackNr r (calcD r) (calcDelta r) ((r.length + 1) * (r.length + 2))
      b s sid inc).isSome := by
  rcases buildStackNr_spec r hF b hb hbase s sid inc hlen
      (fun j hj hstamp => absurd hstamp (hfresh j hj)) with ⟨out, ho1, _⟩
  rw [ho1]
  rfl

/-- Witness for C7 at the worked example with root `4`. -/
theorem claim7_iterative_terminates_witness :
    (Forest exampleReceivers ∧ 4 < exampleReceivers.length ∧
      IsBase exampleReceivers 4 ∧
      (List.replicate 10 (-1 : Int)).length = exampleReceivers.length ∧
      (∀ j, j < exampleReceivers.length →
        (List.replicate 10 (-1 : Int)).getD j 0 ≠ ((4 : Nat) : Int))) ∧
    (buildStackNr exampleReceivers (calcD exampleReceivers) (calcDelta exampleReceivers)
      ((exampleReceivers.length + 1) * (exampleReceivers.length + 2))
      4 (List.replicate 10 0) (List.replicate 10 (-1 : Int)) 0).isSome :=
  ⟨⟨by decide, by decide, by decide, by decide, by decide⟩,
    claim7_iterative_terminates exampleReceivers 4 (List.replicate 10 0)
      (List.replicate 10 (-1 : Int)) 0 (by decide) (by decide) (by decide)
      (by decide) (by decide)⟩

/-- C8 counterexample: `R = [-2,2,2]` contains the value `-2` outside
`[0,3)`, yet the adjacency builder's histogram pass does not fail (Python
indexing wraps `-2` to index `1`) and the whole default-mode computation
silently returns a stack order. -/
theorem claim8_counterexample :
    calculateTempArraysChecked [-2, 2, 2] ≠ none ∧
    orderNodesNumbaChecked [-2, 2, 2] [2] 10 = some [2, 1, 0] :=
  ⟨by decide, by decide⟩

/-- C8 (amended): a receiver value `≥ N` or `< -N` is rejected during the
histogram pass of the adjacency builder (an IndexError propagated as
`none`); receiver values in `[-N, 0)` wrap around Python-style and are not
detected. -/
theorem claim8_amended (r : List Int)
    (hbad : ∃ x ∈ r, (r.length : Int) ≤ x ∨ x < -(r.length : Int)) :
    calculateTempArraysChecked r = none :=
  calcTempChecked_none r hbad

/-- Witness for the amended C8 at `R = [5,0]` (value `5 ≥ N = 2`). -/
theorem claim8_amended_witness :
    (∃ x ∈ ([5, 0] : List Int),
      (([5, 0] : List Int).length : Int) ≤ x ∨ x < -(([5, 0] : List Int).length : Int)) ∧
    calculateTempArraysChecked [5, 0] = none :=
  ⟨by decide, claim8_amended [5, 0] (by decide)⟩

/-- C9: after the driver runs the iterative builder over base-level roots
on a forest, `stack_id` maps every node of a supplied root's subtree to
that root's id and every other node still holds the sentinel `-1`. -/
theorem claim9_stack_id (r : List Nat) (bs : List Nat) (hF : Forest r)
    (hbs : ∀ x ∈ bs, x < r.length ∧ IsBase r x) :
    ∃ out : List Nat × List Int,
      orderNodesNumba r bs .nonRecursive ((r.length + 1) * (r.length + 2)) = some out ∧
      out.2.length = r.length ∧
      ∀ j, j < r.length →
        (∀ x ∈ bs, InSubtree r x j → out.2.getD j 0 = (x : Int)) ∧
        ((¬ ∃ x ∈ bs, InSubtree r x j) → out.2.getD j 0 = -1) := by
  have h := driverLoop_nr_spec r hF bs hbs (List.replicate r.length 0)
      (List.replicate r.length (-1)) 0 [] (by rw [List.length_replicate])
      (by
        intro j hj
        constructor
        · intro x hx
          exact absurd hx (List.not_mem_nil x)
        · intro _
          exact getD_replicate_lt _ _ _ _ hj)
  rcases h with ⟨out, ho1, ho2, ho3⟩
  refine ⟨out, ho1, ho2, ?_⟩
  intro j hj
  have h1 := ho3 j hj
  rw [List.nil_append] at h1
  exact h1

/-- Witness for C9 at the worked example with root list `[4]`. -/
theorem claim9_stack_id_witness :
    (Forest exampleReceivers ∧
      (∀ x ∈ ([4] : List Nat), x < exampleReceivers.length ∧ IsBase exampleReceivers x)) ∧
    (∃ out : List Nat × List Int,
      orderNodesNumba exampleReceivers [4] .nonRecursive
        ((exampleReceivers.length + 1) * (exampleReceivers.length + 2)) = some out ∧
      out.2.length = exampleReceivers.length ∧
      ∀ j, j < exampleReceivers.length →
        (∀ x ∈ ([4] : List Nat), InSubtree exampleReceivers x j →
          out.2.getD j 0 = (x : Int)) ∧
        ((¬ ∃ x ∈ ([4] : List Nat), InSubtree exampleReceivers x j) →
          out.2.getD j 0 = -1)) :=
  ⟨⟨by decide, by decide⟩, claim9_stack_id exampleReceivers [4] (by decide) (by decide)⟩

/-- C10 counterexample: on the one-node forest `R = [0]` with root `0` and
start position `0`, the recursive builder returns position `0`, not the
claimed next free position `0 + 1` (the subtree has one node). -/
theorem claim10_counterexample :
    buildStack (calcD [0]) (calcDelta [0]) 2 0 [7] 0 = some ([0], 0) ∧
    (preorder [0] 2 0).length = 1 :=
  ⟨by decide, by decide⟩

/-- C10 (amended): for every forest, base-level root `b` and start position
`inc`, the recursive builder overwrites `S[inc..]` with the preorder
depth-first sequence of `b`'s subtree (ascending donor order) and returns
`inc + size - 1`, the position of the last node written — one less than the
next free position, which the driver obtains by adding `1`.  The second
conjunct identifies the written sequence as exactly `b`'s subtree. -/
theorem claim10_amended (r : List Nat) (hF : Forest r) (b : Nat) (hb : b < r.length)
    (hbase : IsBase r b) (s : List Nat) (inc : Nat) :
    buildStack (calcD r) (calcDelta r) (r.length + 1) b s inc
      = some (writeSeq s inc (preorder r (r.length + 1) b),
          inc + (preorder r (r.length + 1) b).length - 1) ∧
    (∀ j, j ∈ preorder r (r.length + 1) b ↔ j < r.length ∧ InSubtree r b j) := by
  constructor
  · apply buildStack_eq_preorder r hF (r.length + 1) b hb ⟨r.length, hF.2 b hb⟩
    omega
  · exact fun j => mem_preorder_iff r hF b hb hbase j

/-- Witness for the amended C10 at the worked example, root `4`,
start position `0`. -/
theorem claim10_amended_witness :
    (Forest exampleReceivers ∧ 4 < exampleReceivers.length ∧
      IsBase exampleReceivers 4) ∧
    (buildStack (calcD exampleReceivers) (calcDelta exampleReceivers)
        (exampleReceivers.length + 1) 4 (List.replicate 10 0) 0
      = some (writeSeq (List.replicate 10 0) 0
            (preorder exampleReceivers (exampleReceivers.length + 1) 4),
          0 + (preorder exampleReceivers (exampleReceivers.length + 1) 4).length - 1) ∧
    (∀ j, j ∈ preorder exampleReceivers (exampleReceivers.length + 1) 4 ↔
      j < exampleReceivers.length ∧ InSubtree exampleReceivers 4 j)) :=
  ⟨⟨by decide, by decide, by decide⟩,
    claim10_amended exampleReceivers (by decide) 4 (by decide) (by decide)
      (List.replicate 10 0) 0⟩
